import Mathlib

/-!
Verification of the segmentation-and-reassembly pipeline of the `extract`
repository (`src/clean_text.py`).

Texts are modelled as `List Char` (Python strings are sequences of code
points).  Python whitespace (the set matched by `\s` and stripped by
`str.strip()`) is modelled by the ASCII whitespace characters, which covers
every input considered here.  The external correction service
(`requests.post` in `TextCorrector.correct_text`) is modelled by an explicit
outcome datatype; everything else is translated directly from the source.
-/

namespace Extract

/-- A text, as in the Python source: an immutable character sequence. -/
abbrev Text := List Char

/-- Python whitespace (`\s`, `str.strip()`), restricted to the ASCII range:
space, tab, newline, carriage return, vertical tab, form feed. -/
def isSpaceChar (c : Char) : Bool :=
  c = ' ' || c = '\t' || c = '\n' || c = '\r' || c = Char.ofNat 11 || c = Char.ofNat 12

/-- Python `s.strip()`: remove leading and trailing whitespace. -/
def strip (s : Text) : Text :=
  ((s.dropWhile isSpaceChar).reverse.dropWhile isSpaceChar).reverse

/-- The non-whitespace characters of a text, in order. -/
def nws (s : Text) : Text :=
  s.filter (fun c => !(isSpaceChar c))

/-- Python `text.split('\n\n')`: split on each non-overlapping occurrence of a
double newline, scanning left to right. -/
def splitPP : Text → List Text
  | [] => [[]]
  | [c] => [[c]]
  | c :: d :: rest =>
    if c = '\n' ∧ d = '\n' then
      [] :: splitPP rest
    else
      match splitPP (d :: rest) with
      | [] => [[c]]
      | p :: ps => (c :: p) :: ps

/-- The characters `.`, `!`, `?` of the sentence-boundary heuristic. -/
def isPunct (c : Char) : Bool :=
  c = '.' || c = '!' || c = '?'

/-- Scanner for `re.split(r'(?<=[.!?])\s+', paragraph)`.  `inRun` records that
the scanner is inside a whitespace run that opened a delimiter; `pp` records
whether the previous character was one of `.!?` (the lookbehind). -/
def splitSentAux : Bool → Bool → Text → List Text
  | _, _, [] => [[]]
  | inRun, pp, c :: rest =>
    if inRun && isSpaceChar c then
      splitSentAux true false rest
    else if !inRun && pp && isSpaceChar c then
      [] :: splitSentAux true false rest
    else
      match splitSentAux false (isPunct c) rest with
      | [] => [[c]]
      | s :: ss => (c :: s) :: ss

/-- Python `re.split(r'(?<=[.!?])\s+', paragraph)`. -/
def splitSent (p : Text) : List Text :=
  splitSentAux false false p

/-- One step per loop iteration of
`for i in range(0, len(sentence), max_chars): sentence[i:i+max_chars]`;
the fuel argument (instantiated with `s.length`, an upper bound on the
iteration count for `m > 0`) makes the recursion structural. -/
def hardCutAux (m : Nat) : Nat → Text → List Text
  | _, [] => []
  | 0, _ :: _ => []
  | fuel + 1, c :: cs => ((c :: cs).take m) :: hardCutAux m fuel ((c :: cs).drop m)

/-- The consecutive `max_chars`-sized slices of an over-long sentence
(`sentence[i:i+max_chars]` for `i in range(0, len(sentence), max_chars)`),
for a positive `max_chars`. -/
def hardCutPieces (m : Nat) (s : Text) : List Text :=
  hardCutAux m s.length s

/-- The paragraph separator `"\n\n"`. -/
def ppSep : Text := ['\n', '\n']

/-- The sentence / slice separator `" "`. -/
def spSep : Text := [' ']

/-- The accumulation step used at every tier of `split_text_into_chunks`:

    if current_chunk and len(current_chunk + u) > max_chars:
        chunks.append(current_chunk.strip()); current_chunk = u
    else:
        current_chunk += sep + u if current_chunk else u

The state is the pair `(chunks, current_chunk)`. -/
def flushAppend (sep : Text) (m : Int) (st : List Text × Text) (u : Text) :
    List Text × Text :=
  if st.2 ≠ [] ∧ (st.2.length : Int) + (u.length : Int) > m then
    (st.1 ++ [strip st.2], u)
  else
    (st.1, if st.2 = [] then u else st.2 ++ sep ++ u)

/-- The inner loop over the hard-cut slices of an over-long sentence. -/
def procPieces (m : Int) : List Text × Text → List Text → List Text × Text
  | st, [] => st
  | st, pc :: ps => procPieces m (flushAppend spSep m st pc) ps

/-- The loop over the sentences of an over-long paragraph.  A sentence that is
whitespace-only is skipped (`if not sentence.strip(): continue`).  An
over-long sentence is hard-cut; with `max_chars = 0` the Python
`range(0, len(sentence), 0)` raises `ValueError` (modelled by `none`), and
with `max_chars < 0` the range is empty, so the loop body never runs. -/
def procSentences (m : Int) : List Text × Text → List Text → Option (List Text × Text)
  | st, [] => some st
  | st, s :: ss =>
    if strip s = [] then
      procSentences m st ss
    else if (s.length : Int) > m then
      if m = 0 then none
      else if m < 0 then procSentences m st ss
      else procSentences m (procPieces m st (hardCutPieces m.toNat s)) ss
    else
      procSentences m (flushAppend spSep m st s) ss

/-- The outer loop over paragraphs of `split_text_into_chunks`. -/
def procParagraphs (m : Int) : List Text × Text → List Text → Option (List Text × Text)
  | st, [] => some st
  | st, p :: ps =>
    if (p.length : Int) > m then
      match procSentences m st (splitSent p) with
      | none => none
      | some st' => procParagraphs m st' ps
    else
      procParagraphs m (flushAppend ppSep m st p) ps

/-- `TextCorrector.split_text_into_chunks(text, max_chars)`.  Returns `none`
when the Python code raises `ValueError` (zero step in `range`). -/
def split_text_into_chunks (text : Text) (max_chars : Int) : Option (List Text) :=
  match procParagraphs max_chars ([], []) (splitPP text) with
  | none => none
  | some st =>
    some (if strip st.2 = [] then st.1 else st.1 ++ [strip st.2])

/-- Python string join with a fixed separator, as in the reassembly step
`"\n\n".join(corrected_chunks)`. -/
def joinSep (sep : Text) : List Text → Text
  | [] => []
  | [s] => s
  | s :: ss => s ++ sep ++ joinSep sep ss

section BasicLemmas

theorem dropWhile_dropWhile (p : Char → Bool) (l : Text) :
    (l.dropWhile p).dropWhile p = l.dropWhile p := by
  induction l with
  | nil => rfl
  | cons a l ih =>
    by_cases h : p a
    · simpa [List.dropWhile_cons, h] using ih
    · simp [List.dropWhile_cons, h]

theorem dropWhile_append_one (p : Char → Bool) (c : Char) (hc : p c = false) (l : Text) :
    (l ++ [c]).dropWhile p = l.dropWhile p ++ [c] := by
  induction l with
  | nil => simp [List.dropWhile_cons, hc]
  | cons a l ih =>
    by_cases h : p a
    · simpa [List.dropWhile_cons, h] using ih
    · simp [List.dropWhile_cons, h]

theorem dropWhile_cases (p : Char → Bool) (l : Text) :
    l.dropWhile p = [] ∨ ∃ c l', l.dropWhile p = c :: l' ∧ p c = false := by
  induction l with
  | nil => exact Or.inl rfl
  | cons a l ih =>
    by_cases h : p a
    · simpa [List.dropWhile_cons, h] using ih
    · exact Or.inr ⟨a, l, by simp [List.dropWhile_cons, h], by simpa using h⟩

theorem length_dropWhile_le (p : Char → Bool) (l : Text) :
    (l.dropWhile p).length ≤ l.length := by
  induction l with
  | nil => simp
  | cons a l ih =>
    by_cases h : p a
    · simp only [List.dropWhile_cons, h, if_true]
      exact le_trans ih (Nat.le_succ _)
    · simp [List.dropWhile_cons, h]

theorem strip_length_le (s : Text) : (strip s).length ≤ s.length := by
  unfold strip
  rw [List.length_reverse]
  refine le_trans (length_dropWhile_le _ _) ?_
  rw [List.length_reverse]
  exact length_dropWhile_le _ _

theorem strip_idem (s : Text) : strip (strip s) = strip s := by
  rcases dropWhile_cases isSpaceChar s with h | ⟨c, l', h, hc⟩
  · simp [strip, h]
  · have hs : strip s = c :: ((l'.reverse.dropWhile isSpaceChar).reverse) := by
      simp only [strip, h, List.reverse_cons, dropWhile_append_one isSpaceChar c hc,
        List.reverse_append, List.reverse_cons, List.reverse_nil, List.nil_append]
      rfl
    rw [hs]
    simp only [strip, List.dropWhile_cons, hc, Bool.false_eq_true, if_false,
      List.reverse_cons, List.reverse_reverse, dropWhile_append_one isSpaceChar c hc,
      dropWhile_dropWhile, List.reverse_append, List.reverse_cons, List.reverse_nil,
      List.nil_append]
    rfl

theorem nws_append (a b : Text) : nws (a ++ b) = nws a ++ nws b := by
  simp [nws, List.filter_append]

theorem nws_space_cons {c : Char} (hc : isSpaceChar c = true) (l : Text) :
    nws (c :: l) = nws l := by
  simp [nws, List.filter_cons, hc]

theorem nws_keep_cons {c : Char} (hc : isSpaceChar c = false) (l : Text) :
    nws (c :: l) = c :: nws l := by
  simp [nws, List.filter_cons, hc]

theorem nws_reverse (l : Text) : nws l.reverse = (nws l).reverse := by
  induction l with
  | nil => rfl
  | cons a l ih =>
    by_cases h : isSpaceChar a
    · rw [List.reverse_cons, nws_append, nws_space_cons h, ih, nws_space_cons h]
      simp [nws]
    · have h' : isSpaceChar a = false := by simpa using h
      rw [List.reverse_cons, nws_append, nws_keep_cons h', ih, nws_keep_cons h']
      simp [nws]

theorem nws_dropWhile (l : Text) : nws (l.dropWhile isSpaceChar) = nws l := by
  induction l with
  | nil => rfl
  | cons a l ih =>
    by_cases h : isSpaceChar a
    · rw [List.dropWhile_cons, if_pos h, ih, nws_space_cons h]
    · rw [List.dropWhile_cons, if_neg (by simp [h])]

theorem nws_strip (s : Text) : nws (strip s) = nws s := by
  unfold strip
  rw [nws_reverse, nws_dropWhile, nws_reverse, List.reverse_reverse, nws_dropWhile]

theorem strip_eq_nil_of_nws (s : Text) (h : nws s = []) : strip s = [] := by
  have hall : ∀ c ∈ s, isSpaceChar c = true := by
    intro c hcs
    by_contra hcf
    have : c ∈ nws s := by
      simp only [nws, List.mem_filter]
      exact ⟨hcs, by simpa using hcf⟩
    simp [h] at this
  have hdw : ∀ l : Text, (∀ c ∈ l, isSpaceChar c = true) → l.dropWhile isSpaceChar = [] := by
    intro l
    induction l with
    | nil => intro _; rfl
    | cons a l ih =>
      intro hl
      rw [List.dropWhile_cons, if_pos (hl a (List.mem_cons_self a l))]
      exact ih (fun c hc => hl c (List.mem_cons_of_mem a hc))
  unfold strip
  rw [hdw s hall]
  simp

theorem nws_eq_nil_of_strip (s : Text) (h : strip s = []) : nws s = [] := by
  rw [← nws_strip, h]
  rfl

theorem nws_join (l : List Text) : (l.map nws).flatten = nws l.flatten := by
  induction l with
  | nil => rfl
  | cons a l ih => simp [List.flatten, nws_append, ih]

theorem joinSep_nws (sep : Text) (hsep : nws sep = []) (cs : List Text) :
    nws (joinSep sep cs) = (cs.map nws).flatten := by
  induction cs with
  | nil => rfl
  | cons s ss ih =>
    cases ss with
    | nil => simp [joinSep, List.flatten]
    | cons s' ss' =>
      simp only [joinSep, nws_append, hsep, List.map_cons, List.flatten] at *
      simp [ih]

end BasicLemmas

section SplitterLemmas

theorem splitPP_ne_nil (t : Text) : splitPP t ≠ [] := by
  induction t using splitPP.induct with
  | case1 => simp [splitPP]
  | case2 c => simp [splitPP]
  | case3 c d rest hcd ih =>
    simp [splitPP, hcd]
  | case4 c d rest hcd hnil ih =>
    rw [splitPP, if_neg hcd, hnil]
    simp
  | case5 c d rest hcd p ps hcons ih =>
    rw [splitPP, if_neg hcd, hcons]
    simp

theorem splitPP_nws (t : Text) : ((splitPP t).map nws).flatten = nws t := by
  induction t using splitPP.induct with
  | case1 => simp [splitPP, nws]
  | case2 c => simp [splitPP]
  | case3 c d rest hcd ih =>
    obtain ⟨hc, hd⟩ := hcd
    subst hc; subst hd
    rw [splitPP, if_pos ⟨rfl, rfl⟩]
    simp only [List.map_cons, List.flatten_cons, ih]
    rw [nws_space_cons (by decide), nws_space_cons (by decide)]
    simp [nws]
  | case4 c d rest hcd hnil ih =>
    exact absurd hnil (splitPP_ne_nil _)
  | case5 c d rest hcd p ps hcons ih =>
    rw [splitPP, if_neg hcd, hcons]
    rw [hcons] at ih
    simp only [List.map_cons, List.flatten_cons] at ih ⊢
    by_cases hc : isSpaceChar c
    · rw [nws_space_cons hc, nws_space_cons hc, ← ih]
    · have hc' : isSpaceChar c = false := by simpa using hc
      rw [nws_keep_cons hc', nws_keep_cons hc', ← ih]
      simp

theorem splitSentAux_ne_nil (t : Text) : ∀ b1 b2 : Bool, splitSentAux b1 b2 t ≠ [] := by
  induction t with
  | nil => intro b1 b2; simp [splitSentAux]
  | cons c rest ih =>
    intro b1 b2
    rw [splitSentAux]
    by_cases h1 : b1 && isSpaceChar c
    · rw [if_pos h1]; exact ih true false
    · rw [if_neg h1]
      by_cases h2 : !b1 && b2 && isSpaceChar c
      · rw [if_pos h2]; simp
      · rw [if_neg h2]
        rcases h : splitSentAux false (isPunct c) rest with _ | ⟨s, ss⟩
        · simp
        · simp

theorem splitSentAux_nws (t : Text) :
    ∀ b1 b2 : Bool, ((splitSentAux b1 b2 t).map nws).flatten = nws t := by
  induction t with
  | nil => intro b1 b2; simp [splitSentAux, List.flatten, nws]
  | cons c rest ih =>
    intro b1 b2
    rw [splitSentAux]
    by_cases h1 : b1 && isSpaceChar c
    · rw [if_pos h1]
      have hc : isSpaceChar c = true := by
        rcases Bool.and_eq_true_iff.mp h1 with ⟨_, h⟩; exact h
      rw [ih true false, nws_space_cons hc]
    · rw [if_neg h1]
      by_cases h2 : !b1 && b2 && isSpaceChar c
      · rw [if_pos h2]
        have hc : isSpaceChar c = true := by
          rcases Bool.and_eq_true_iff.mp h2 with ⟨_, h⟩; exact h
        simp only [List.map_cons, List.flatten_cons]
        rw [ih true false, nws_space_cons hc]
        simp [nws]
      · rw [if_neg h2]
        rcases h : splitSentAux false (isPunct c) rest with _ | ⟨s, ss⟩
        · exact absurd h (splitSentAux_ne_nil _ _ _)
        · show ((List.map nws ((c :: s) :: ss)).flatten) = nws (c :: rest)
          have ih' := ih false (isPunct c)
          rw [h] at ih'
          simp only [List.map_cons, List.flatten_cons] at ih' ⊢
          by_cases hc : isSpaceChar c
          · rw [nws_space_cons hc, nws_space_cons hc, ← ih']
          · have hc' : isSpaceChar c = false := by simpa using hc
            rw [nws_keep_cons hc', nws_keep_cons hc', ← ih']
            simp

theorem splitSent_nws (p : Text) : ((splitSent p).map nws).flatten = nws p :=
  splitSentAux_nws p false false

theorem hardCutAux_join (m : Nat) (hm : 0 < m) :
    ∀ (fuel : Nat) (s : Text), s.length ≤ fuel → (hardCutAux m fuel s).flatten = s := by
  intro fuel
  induction fuel with
  | zero =>
    intro s hs
    cases s with
    | nil => rfl
    | cons c cs => simp at hs
  | succ fuel ih =>
    intro s hs
    cases s with
    | nil => rfl
    | cons c cs =>
      rw [hardCutAux]
      simp only [List.flatten_cons]
      rw [ih ((c :: cs).drop m) (by simp only [List.length_drop]; omega)]
      exact List.take_append_drop m (c :: cs)

theorem hardCutAux_piece_le (m : Nat) :
    ∀ (fuel : Nat) (s : Text), ∀ pc ∈ hardCutAux m fuel s, pc.length ≤ m := by
  intro fuel
  induction fuel with
  | zero =>
    intro s pc hpc
    cases s with
    | nil => simp [hardCutAux] at hpc
    | cons c cs => simp [hardCutAux] at hpc
  | succ fuel ih =>
    intro s pc hpc
    cases s with
    | nil => simp [hardCutAux] at hpc
    | cons c cs =>
      rw [hardCutAux] at hpc
      rcases List.mem_cons.mp hpc with h | h
      · subst h
        rw [List.length_take]
        exact min_le_left _ _
      · exact ih _ pc h

theorem hardCutPieces_join (m : Nat) (hm : 0 < m) (s : Text) :
    (hardCutPieces m s).flatten = s :=
  hardCutAux_join m hm s.length s le_rfl

theorem hardCutPieces_piece_le (m : Nat) (s : Text) :
    ∀ pc ∈ hardCutPieces m s, pc.length ≤ m :=
  hardCutAux_piece_le m s.length s

theorem hardCutPieces_nws (m : Nat) (hm : 0 < m) (s : Text) :
    ((hardCutPieces m s).map nws).flatten = nws s := by
  rw [nws_join, hardCutPieces_join m hm s]

end SplitterLemmas

section StateInvariants

/-- The non-whitespace content accumulated in a splitter state
`(chunks, current_chunk)`. -/
def contentOf (st : List Text × Text) : Text :=
  (st.1.map nws).flatten ++ nws st.2

/-- Invariant maintained by `split_text_into_chunks` on its state for a bound
`m`: every completed chunk is trimmed and at most `m + 2` characters long
(the accumulation check compares `len(current_chunk + unit)` without the
joined separator, which adds up to 2 characters), and the pending buffer is
at most `m + 2` characters long. -/
def goodState (m : Int) (st : List Text × Text) : Prop :=
  (∀ c ∈ st.1, strip c = c ∧ (c.length : Int) ≤ m + 2) ∧ (st.2.length : Int) ≤ m + 2

theorem flushAppend_spec (sep : Text) (m : Int) (st : List Text × Text) (u : Text)
    (hsep : nws sep = []) (hsl : (sep.length : Int) ≤ 2)
    (hu : (u.length : Int) ≤ m) (hst : goodState m st) :
    goodState m (flushAppend sep m st u) ∧
      contentOf (flushAppend sep m st u) = contentOf st ++ nws u := by
  obtain ⟨chunks, cc⟩ := st
  obtain ⟨hchunks, hcc⟩ := hst
  simp only at hchunks hcc
  unfold flushAppend
  by_cases h : (chunks, cc).2 ≠ [] ∧ ((chunks, cc).2.length : Int) + (u.length : Int) > m
  · rw [if_pos h]
    refine ⟨⟨?_, ?_⟩, ?_⟩
    · intro c hc
      simp only at hc
      rcases List.mem_append.mp hc with hc | hc
      · exact hchunks c hc
      · have hce : c = strip cc := by simpa using hc
        subst hce
        have hl : ((strip cc).length : Int) ≤ (cc.length : Int) :=
          Nat.cast_le.mpr (strip_length_le cc)
        exact ⟨strip_idem _, by omega⟩
    · show (u.length : Int) ≤ m + 2
      omega
    · show ((chunks ++ [strip cc]).map nws).flatten ++ nws u
        = ((chunks.map nws).flatten ++ nws cc) ++ nws u
      simp only [List.map_append, List.flatten_append, List.map_cons, List.map_nil,
        List.flatten_cons, List.flatten_nil, List.append_nil, nws_strip]
  · rw [if_neg h]
    by_cases h2 : cc = []
    · subst h2
      rw [if_pos rfl]
      refine ⟨⟨hchunks, ?_⟩, ?_⟩
      · show (u.length : Int) ≤ m + 2
        omega
      · show (chunks.map nws).flatten ++ nws u = ((chunks.map nws).flatten ++ nws []) ++ nws u
        simp [nws]
    · rw [if_neg h2]
      have hb : ¬((cc.length : Int) + (u.length : Int) > m) := by
        intro hb
        exact h ⟨h2, hb⟩
      refine ⟨⟨hchunks, ?_⟩, ?_⟩
      · show ((cc ++ sep ++ u).length : Int) ≤ m + 2
        simp only [List.length_append]
        push_cast
        omega
      · show (chunks.map nws).flatten ++ nws (cc ++ sep ++ u)
          = ((chunks.map nws).flatten ++ nws cc) ++ nws u
        simp only [nws_append, hsep]
        simp [List.append_assoc]

theorem procPieces_spec (m : Int) :
    ∀ (ps : List Text) (st : List Text × Text),
      (∀ pc ∈ ps, (pc.length : Int) ≤ m) → goodState m st →
      goodState m (procPieces m st ps) ∧
        contentOf (procPieces m st ps) = contentOf st ++ (ps.map nws).flatten := by
  intro ps
  induction ps with
  | nil => intro st _ hst; exact ⟨hst, by rw [procPieces]; simp⟩
  | cons pc ps ih =>
    intro st hps hst
    rw [procPieces]
    obtain ⟨hg, hc⟩ := flushAppend_spec spSep m st pc (by decide) (by decide)
      (hps pc (List.mem_cons_self pc ps)) hst
    obtain ⟨hg', hc'⟩ := ih (flushAppend spSep m st pc)
      (fun q hq => hps q (List.mem_cons_of_mem pc hq)) hg
    refine ⟨hg', ?_⟩
    rw [hc', hc]
    simp [List.append_assoc]

theorem procSentences_spec (m : Int) (hm : 0 < m) :
    ∀ (ss : List Text) (st : List Text × Text), goodState m st →
      ∃ st', procSentences m st ss = some st' ∧ goodState m st' ∧
        contentOf st' = contentOf st ++ (ss.map nws).flatten := by
  intro ss
  induction ss with
  | nil => intro st hst; exact ⟨st, rfl, hst, by simp⟩
  | cons s ss ih =>
    intro st hst
    rw [procSentences]
    by_cases hblank : strip s = []
    · rw [if_pos hblank]
      obtain ⟨st', h1, h2, h3⟩ := ih st hst
      refine ⟨st', h1, h2, ?_⟩
      rw [h3]
      simp [nws_eq_nil_of_strip s hblank]
    · rw [if_neg hblank]
      by_cases hlen : (s.length : Int) > m
      · rw [if_pos hlen, if_neg (by omega : ¬m = 0), if_neg (by omega : ¬m < 0)]
        have hmt : 0 < m.toNat := by omega
        have hpieces : ∀ pc ∈ hardCutPieces m.toNat s, (pc.length : Int) ≤ m := by
          intro pc hpc
          have := hardCutPieces_piece_le m.toNat s pc hpc
          omega
        obtain ⟨hg, hc⟩ := procPieces_spec m (hardCutPieces m.toNat s) st hpieces hst
        obtain ⟨st', h1, h2, h3⟩ := ih _ hg
        refine ⟨st', h1, h2, ?_⟩
        rw [h3, hc, hardCutPieces_nws m.toNat hmt s]
        simp [List.append_assoc]
      · rw [if_neg hlen]
        obtain ⟨hg, hcnt⟩ := flushAppend_spec spSep m st s (by decide) (by decide)
          (by omega) hst
        obtain ⟨st', h1, h2, h3⟩ := ih _ hg
        refine ⟨st', h1, h2, ?_⟩
        rw [h3, hcnt]
        simp [List.append_assoc]

theorem procParagraphs_spec (m : Int) (hm : 0 < m) :
    ∀ (ps : List Text) (st : List Text × Text), goodState m st →
      ∃ st', procParagraphs m st ps = some st' ∧ goodState m st' ∧
        contentOf st' = contentOf st ++ (ps.map nws).flatten := by
  intro ps
  induction ps with
  | nil => intro st hst; exact ⟨st, rfl, hst, by simp⟩
  | cons p ps ih =>
    intro st hst
    rw [procParagraphs]
    by_cases hlen : (p.length : Int) > m
    · rw [if_pos hlen]
      obtain ⟨st1, h1, hg1, hc1⟩ := procSentences_spec m hm (splitSent p) st hst
      rw [h1]
      obtain ⟨st', h2, hg2, hc2⟩ := ih st1 hg1
      refine ⟨st', ?_, hg2, ?_⟩
      · show procParagraphs m st1 ps = some st'
        exact h2
      · rw [hc2, hc1, splitSent_nws]
        simp [List.append_assoc]
    · rw [if_neg hlen]
      obtain ⟨hg, hcnt⟩ := flushAppend_spec ppSep m st p (by decide) (by decide)
        (by omega) hst
      obtain ⟨st', h1, h2, h3⟩ := ih _ hg
      refine ⟨st', h1, h2, ?_⟩
      rw [h3, hcnt]
      simp [List.append_assoc]

/-- Combined behaviour of the splitter for a positive `max_chars`: it always
succeeds, every returned chunk is trimmed and at most `max_chars + 2` long,
and the chunks carry exactly the non-whitespace content of the input. -/
theorem split_spec (t : Text) (m : Int) (hm : 0 < m) :
    ∃ cs, split_text_into_chunks t m = some cs ∧
      (∀ c ∈ cs, strip c = c ∧ (c.length : Int) ≤ m + 2) ∧
      (cs.map nws).flatten = nws t := by
  have hg0 : goodState m ([], ([] : Text)) := by
    refine ⟨fun c hc => absurd hc (List.not_mem_nil c), ?_⟩
    simp only [List.length_nil, Nat.cast_zero]
    omega
  obtain ⟨st', h1, ⟨hchunks, hcc⟩, h3⟩ := procParagraphs_spec m hm (splitPP t) ([], []) hg0
  have hcontent : (st'.1.map nws).flatten ++ nws st'.2 = nws t := by
    have h4 : contentOf st' = (List.map nws (splitPP t)).flatten := by
      rw [h3]
      simp [contentOf, nws]
    rw [← splitPP_nws t, ← h4]
    rfl
  have hsplit : split_text_into_chunks t m
      = some (if strip st'.2 = [] then st'.1 else st'.1 ++ [strip st'.2]) := by
    unfold split_text_into_chunks
    rw [h1]
  by_cases hstrip : strip st'.2 = []
  · rw [if_pos hstrip] at hsplit
    refine ⟨st'.1, hsplit, hchunks, ?_⟩
    have hns : nws st'.2 = [] := nws_eq_nil_of_strip _ hstrip
    rw [hns, List.append_nil] at hcontent
    exact hcontent
  · rw [if_neg hstrip] at hsplit
    refine ⟨st'.1 ++ [strip st'.2], hsplit, ?_, ?_⟩
    · intro c hc
      rcases List.mem_append.mp hc with hc | hc
      · exact hchunks c hc
      · have hce : c = strip st'.2 := by simpa using hc
        subst hce
        have hl : ((strip st'.2).length : Int) ≤ (st'.2.length : Int) :=
          Nat.cast_le.mpr (strip_length_le st'.2)
        exact ⟨strip_idem _, by omega⟩
    · rw [List.map_append]
      simp only [List.map_cons, List.map_nil, List.flatten_append, List.flatten_cons,
        List.flatten_nil, List.append_nil, nws_strip]
      exact hcontent

end StateInvariants

section DegenerateMaxChars

theorem procSentences_neg (m : Int) (hm : m < 0) :
    ∀ (ss : List Text) (st : List Text × Text), procSentences m st ss = some st := by
  intro ss
  induction ss with
  | nil => intro st; rfl
  | cons s ss ih =>
    intro st
    rw [procSentences]
    by_cases hb : strip s = []
    · rw [if_pos hb]; exact ih st
    · rw [if_neg hb, if_pos (by omega : (s.length : Int) > m),
        if_neg (by omega : ¬m = 0), if_pos hm]
      exact ih st

theorem procParagraphs_neg (m : Int) (hm : m < 0) :
    ∀ (ps : List Text) (st : List Text × Text), procParagraphs m st ps = some st := by
  intro ps
  induction ps with
  | nil => intro st; rfl
  | cons p ps ih =>
    intro st
    rw [procParagraphs, if_pos (by omega : (p.length : Int) > m),
      procSentences_neg m hm (splitSent p) st]
    show procParagraphs m st ps = some st
    exact ih st

theorem procSentences_all_blank (m : Int) :
    ∀ (ss : List Text) (st : List Text × Text),
      (ss.map nws).flatten = [] → procSentences m st ss = some st := by
  intro ss
  induction ss with
  | nil => intro st _; rfl
  | cons s ss ih =>
    intro st h
    simp only [List.map_cons, List.flatten_cons, List.append_eq_nil] at h
    rw [procSentences, if_pos (strip_eq_nil_of_nws s h.1)]
    exact ih st h.2

theorem procSentences_zero_none :
    ∀ (ss : List Text) (st : List Text × Text),
      (ss.map nws).flatten ≠ [] → procSentences 0 st ss = none := by
  intro ss
  induction ss with
  | nil => intro st h; simp at h
  | cons s ss ih =>
    intro st h
    rw [procSentences]
    by_cases hb : strip s = []
    · rw [if_pos hb]
      apply ih
      have hn : nws s = [] := nws_eq_nil_of_strip s hb
      simpa [hn] using h
    · rw [if_neg hb]
      have hs : nws s ≠ [] := fun hn => hb (strip_eq_nil_of_nws s hn)
      have hne : s ≠ [] := by
        intro he
        subst he
        exact hs rfl
      have hlen : (s.length : Int) > 0 := by
        cases s with
        | nil => exact absurd rfl hne
        | cons a l => simp only [List.length_cons]; push_cast; omega
      rw [if_pos hlen, if_pos rfl]

theorem procParagraphs_zero_none :
    ∀ (ps : List Text) (st : List Text × Text),
      (ps.map nws).flatten ≠ [] → procParagraphs 0 st ps = none := by
  intro ps
  induction ps with
  | nil => intro st h; simp at h
  | cons p ps ih =>
    intro st h
    rw [procParagraphs]
    by_cases hp : nws p = []
    · have hrest : (ps.map nws).flatten ≠ [] := by simpa [hp] using h
      by_cases hlen : (p.length : Int) > 0
      · rw [if_pos hlen,
          procSentences_all_blank 0 (splitSent p) st (by rw [splitSent_nws]; exact hp)]
        show procParagraphs 0 st ps = none
        exact ih st hrest
      · rw [if_neg hlen]
        exact ih _ hrest
    · have hne : p ≠ [] := by
        intro he
        subst he
        exact hp rfl
      have hlen : (p.length : Int) > 0 := by
        cases p with
        | nil => exact absurd rfl hne
        | cons a l => simp only [List.length_cons]; push_cast; omega
      rw [if_pos hlen,
        procSentences_zero_none (splitSent p) st (by rw [splitSent_nws]; exact hp)]

end DegenerateMaxChars

section Corrector

/-- Outcome of one `requests.post` call to the correction service, as observed
by `TextCorrector.correct_text`: a timeout (`requests.exceptions.Timeout`), a
transport/connection failure (another `RequestException`), or an HTTP
response with a status code and a parsed `choices` field.  `none` choices
models a JSON body without the `"choices"` key; a `none` element models a
choice whose `message.content` cannot be extracted
(`KeyError`/`IndexError`/`TypeError`, all caught by the handlers). -/
inductive ServiceResult where
  | timeout : ServiceResult
  | connError : ServiceResult
  | httpResponse : Nat → Option (List (Option Text)) → ServiceResult
deriving DecidableEq

/-- `TextCorrector.correct_text(text)`, as a function of the service outcome:
`raise_for_status` raises for a status of 400 or more (caught as
`RequestException`); a missing or empty `choices` list returns the input; an
extraction failure on the first choice is caught; a successful first choice
is returned stripped.  Every failure path returns the original `text`. -/
def correct_text (res : ServiceResult) (text : Text) : Text :=
  match res with
  | .timeout => text
  | .connError => text
  | .httpResponse status choices =>
    if 400 ≤ status then text
    else
      match choices with
      | none => text
      | some [] => text
      | some (none :: _) => text
      | some (some c :: _) => strip c

/-- A per-segment outcome: the text appended to `corrected_chunks`, together
with the observable changed-or-unchanged flag that `correct_full_text` logs
(`corrected_chunk != chunk`). -/
structure SegmentResult where
  content : Text
  corrected : Bool
deriving DecidableEq

/-- The loop of `correct_full_text` over the chunks; each chunk is indexed by
its position so that `svc i` gives the service outcome of the i-th call. -/
def correctChunks (svc : Nat → ServiceResult) : Nat → List Text → List SegmentResult
  | _, [] => []
  | i, c :: cs =>
    { content := correct_text (svc i) c,
      corrected := decide (correct_text (svc i) c ≠ c) } :: correctChunks svc (i + 1) cs

/-- `TextCorrector.correct_full_text(text, max_chars)`: split, correct each
chunk in order (the outcome of the i-th service call given by `svc i`), and
rejoin with `"\n\n"`.  Returns the final text together with the per-segment
results; `none` when the splitter raises `ValueError`. -/
def correct_full_text (svc : Nat → ServiceResult) (text : Text) (max_chars : Int) :
    Option (Text × List SegmentResult) :=
  match split_text_into_chunks text max_chars with
  | none => none
  | some chunks =>
    some (joinSep ppSep ((correctChunks svc 0 chunks).map (fun r => r.content)),
      correctChunks svc 0 chunks)

/-- A service that times out on every call. -/
def svcTimeout : Nat → ServiceResult := fun _ => ServiceResult.timeout

/-- A service that fails with a connection error on the first call and times
out on every later call. -/
def svcMixed : Nat → ServiceResult := fun i =>
  if i = 0 then ServiceResult.connError else ServiceResult.timeout

theorem correct_full_text_eq (svc : Nat → ServiceResult) (t : Text) (m : Int)
    (cs : List Text) (h : split_text_into_chunks t m = some cs) :
    correct_full_text svc t m
      = some (joinSep ppSep ((correctChunks svc 0 cs).map (fun r => r.content)),
          correctChunks svc 0 cs) := by
  unfold correct_full_text
  rw [h]

theorem correctChunks_timeout :
    ∀ (k : Nat) (cs : List Text),
      correctChunks svcTimeout k cs = cs.map (fun c => ⟨c, false⟩) := by
  intro k cs
  induction cs generalizing k with
  | nil => rfl
  | cons c cs ih =>
    rw [correctChunks, ih]
    simp [svcTimeout, correct_text]

theorem correctChunks_length (svc : Nat → ServiceResult) :
    ∀ (cs : List Text) (k : Nat), (correctChunks svc k cs).length = cs.length := by
  intro cs
  induction cs with
  | nil => intro k; rfl
  | cons c cs ih =>
    intro k
    rw [correctChunks]
    simp [ih]

theorem correctChunks_agree (svc1 svc2 : Nat → ServiceResult) (i : Nat)
    (hag : ∀ j, j ≠ i → svc1 j = svc2 j) :
    ∀ (cs : List Text) (k j : Nat), k + j ≠ i →
      (correctChunks svc1 k cs)[j]? = (correctChunks svc2 k cs)[j]? := by
  intro cs
  induction cs with
  | nil => intro k j _; rfl
  | cons c cs ih =>
    intro k j hkj
    rw [correctChunks, correctChunks]
    cases j with
    | zero =>
      have hk : svc1 k = svc2 k := hag k (by omega)
      simp [hk]
    | succ j =>
      simp only [List.getElem?_cons_succ]
      exact ih (k + 1) j (by omega)

theorem map_content_timeout (cs : List Text) :
    (cs.map (fun c => (⟨c, false⟩ : SegmentResult))).map (fun r => r.content) = cs := by
  induction cs with
  | nil => rfl
  | cons c cs ih => simp [ih]

theorem countP_corrected_map_false (cs : List Text) :
    (cs.map (fun c => (⟨c, false⟩ : SegmentResult))).countP (fun r => r.corrected) = 0 := by
  induction cs with
  | nil => rfl
  | cons c cs ih => simp [List.countP_cons, ih]

end Corrector

section UniformTexts

theorem dropWhile_no_sat (p : Char → Bool) :
    ∀ l : Text, (∀ c ∈ l, p c = false) → l.dropWhile p = l := by
  intro l h
  cases l with
  | nil => rfl
  | cons a l =>
    have ha := h a (List.mem_cons_self a l)
    simp [List.dropWhile_cons, ha]

theorem strip_no_space (s : Text) (h : ∀ c ∈ s, isSpaceChar c = false) : strip s = s := by
  unfold strip
  rw [dropWhile_no_sat _ s h,
    dropWhile_no_sat _ s.reverse (fun c hc => h c (List.mem_reverse.mp hc))]
  exact List.reverse_reverse s

theorem splitPP_no_newline : ∀ t : Text, (∀ c ∈ t, ¬c = '\n') → splitPP t = [t] := by
  intro t
  induction t using splitPP.induct with
  | case1 => intro _; rfl
  | case2 c => intro _; rfl
  | case3 c d rest hcd ih =>
    intro h
    exact absurd hcd.1 (h c (List.mem_cons_self c (d :: rest)))
  | case4 c d rest hcd hnil ih =>
    intro _
    exact absurd hnil (splitPP_ne_nil _)
  | case5 c d rest hcd p ps hcons ih =>
    intro h
    have ht : splitPP (d :: rest) = [d :: rest] :=
      ih (fun c' hc' => h c' (List.mem_cons_of_mem c hc'))
    rw [splitPP, if_neg hcd, hcons]
    rw [hcons] at ht
    injection ht with h1 h2
    subst h1
    subst h2
    rfl

theorem splitSentAux_no_space :
    ∀ t : Text, (∀ c ∈ t, isSpaceChar c = false) →
      ∀ b1 b2 : Bool, splitSentAux b1 b2 t = [t] := by
  intro t
  induction t with
  | nil => intro _ b1 b2; rfl
  | cons c rest ih =>
    intro h b1 b2
    have hc : isSpaceChar c = false := h c (List.mem_cons_self c rest)
    rw [splitSentAux, if_neg (by simp [hc]), if_neg (by simp [hc]),
      ih (fun c' hc' => h c' (List.mem_cons_of_mem c hc')) false (isPunct c)]

theorem hardCutAux_fuel (m : Nat) (hm : 0 < m) :
    ∀ (f1 : Nat) (s : Text) (f2 : Nat), s.length ≤ f1 → s.length ≤ f2 →
      hardCutAux m f1 s = hardCutAux m f2 s := by
  intro f1
  induction f1 with
  | zero =>
    intro s f2 h1 h2
    have hs : s = [] := List.eq_nil_of_length_eq_zero (by omega)
    subst hs
    cases f2 <;> rfl
  | succ f1 ih =>
    intro s f2 h1 h2
    cases s with
    | nil => cases f2 <;> rfl
    | cons c cs =>
      cases f2 with
      | zero => simp at h2
      | succ f2 =>
        rw [hardCutAux, hardCutAux]
        congr 1
        have hl : ((c :: cs).drop m).length = (c :: cs).length - m := List.length_drop m _
        have hlc : (c :: cs).length = cs.length + 1 := List.length_cons c cs
        apply ih
        · omega
        · omega

theorem hardCutPieces_cons (m : Nat) (hm : 0 < m) (s : Text) (hs : s ≠ []) :
    hardCutPieces m s = s.take m :: hardCutPieces m (s.drop m) := by
  cases s with
  | nil => exact absurd rfl hs
  | cons c cs =>
    show hardCutAux m (c :: cs).length (c :: cs) = _
    rw [List.length_cons, hardCutAux]
    congr 1
    apply hardCutAux_fuel m hm
    · have hl : ((c :: cs).drop m).length = (c :: cs).length - m := List.length_drop m _
      have hlc : (c :: cs).length = cs.length + 1 := List.length_cons c cs
      omega
    · exact le_rfl

end UniformTexts

section Claims

/-- Claim C1, counterexample: the claim says every segment (outside hard
cuts) has length at most `max_chars`, but with `max_chars = 10` the input
`"aaaaa\n\nbbbbb"` (two 5-character paragraphs, no hard cut) is returned as
one single segment of length 12, because the accumulation check compares the
lengths without the `"\n\n"` separator that the append then inserts. -/
theorem c1_cex :
    split_text_into_chunks ("aaaaa\n\nbbbbb".toList) 10 = some ["aaaaa\n\nbbbbb".toList] ∧
    ¬((("aaaaa\n\nbbbbb".toList : Text).length : Int) ≤ 10) :=
  ⟨by decide, by decide⟩

/-- Claim C1 (amended): for every input text and every `max_chars > 0`,
every segment returned by `split_text_into_chunks` has length at most
`max_chars + 2` — the accumulation check ignores the separator joined in
(up to 2 characters for `"\n\n"`); hard-cut pieces themselves never exceed
`max_chars`. -/
theorem c1_bound (t : Text) (m : Int) (cs : List Text) (hm : 0 < m)
    (h : split_text_into_chunks t m = some cs) :
    ∀ c ∈ cs, (c.length : Int) ≤ m + 2 := by
  obtain ⟨cs', h', hprop, _⟩ := split_spec t m hm
  rw [h'] at h
  injection h with h
  subst h
  intro c hc
  exact (hprop c hc).2

/-- Witness for C1 at a concrete input. -/
theorem c1_bound_witness : (("ab".toList : Text).length : Int) ≤ 5 + 2 :=
  c1_bound ("ab".toList) 5 ["ab".toList] (by decide) (by decide) ("ab".toList) (by decide)

/-- Claim C2 (confirmed): every failure outcome of the correction service —
timeout, connection failure, non-success HTTP status, response without the
`choices` field or with an empty `choices` list, or a first choice whose
content cannot be extracted — makes `correct_text` return the original
segment unchanged (the Lean model is total, matching the `except` handlers
that stop every exception at this boundary). -/
theorem c2_failures (t : Text) :
    correct_text ServiceResult.timeout t = t ∧
    correct_text ServiceResult.connError t = t ∧
    (∀ (st : Nat) (ch : Option (List (Option Text))), 400 ≤ st →
      correct_text (ServiceResult.httpResponse st ch) t = t) ∧
    (∀ st : Nat, correct_text (ServiceResult.httpResponse st none) t = t) ∧
    (∀ st : Nat, correct_text (ServiceResult.httpResponse st (some [])) t = t) ∧
    (∀ (st : Nat) (rest : List (Option Text)),
      correct_text (ServiceResult.httpResponse st (some (none :: rest))) t = t) := by
  refine ⟨rfl, rfl, ?_, ?_, ?_, ?_⟩
  · intro st ch hst
    simp [correct_text, hst]
  · intro st
    by_cases h : 400 ≤ st <;> simp [correct_text, h]
  · intro st
    by_cases h : 400 ≤ st <;> simp [correct_text, h]
  · intro st rest
    by_cases h : 400 ≤ st <;> simp [correct_text, h]

/-- Witness for C2 at a concrete input. -/
theorem c2_failures_witness :
    correct_text (ServiceResult.httpResponse 500 none) ("x".toList) = "x".toList :=
  (c2_failures ("x".toList)).2.2.1 500 none (by omega)

/-- Claim C3 (confirmed): for every input text and `max_chars > 0` the
splitter succeeds, and rejoining its segments with the fixed `"\n\n"`
separator (the no-op-corrector reassembly of `correct_full_text`) preserves
the sequence of non-whitespace characters of the original exactly and in
order. -/
theorem c3_reassembly (t : Text) (m : Int) (hm : 0 < m) :
    (split_text_into_chunks t m).isSome = true ∧
    ∀ cs, split_text_into_chunks t m = some cs →
      nws (joinSep ppSep cs) = nws t := by
  obtain ⟨cs', h', _, hcontent⟩ := split_spec t m hm
  refine ⟨by rw [h']; rfl, ?_⟩
  intro cs h
  rw [h'] at h
  injection h with h
  subst h
  rw [joinSep_nws ppSep (by decide) cs']
  exact hcontent

/-- Witness for C3 at a concrete input. -/
theorem c3_reassembly_witness :
    nws (joinSep ppSep ["hi".toList]) = nws (" hi".toList) :=
  (c3_reassembly (" hi".toList) 5 (by decide)).2 ["hi".toList] (by decide)

/-- Claim C4, counterexample: with `max_chars = 3`, the input `"   \n\nabc"`
yields the segment list `["", "abc"]` — the whitespace-only first paragraph
is buffered and later flushed as `"   ".strip() = ""`, an empty segment, so
not every returned element is non-empty. -/
theorem c4_cex :
    split_text_into_chunks ("   \n\nabc".toList) 3 = some [([] : Text), "abc".toList] ∧
    ¬(∀ c ∈ [([] : Text), "abc".toList], c ≠ []) :=
  ⟨by decide, by decide⟩

/-- Claim C4 (amended): every segment returned by `split_text_into_chunks`
with `max_chars > 0` is trimmed (it equals its own `strip`), but a segment
may be empty: a flush of a buffer holding only whitespace (possible when a
whitespace-only paragraph was buffered) produces the empty string. -/
theorem c4_trimmed (t : Text) (m : Int) (cs : List Text) (hm : 0 < m)
    (h : split_text_into_chunks t m = some cs) :
    ∀ c ∈ cs, strip c = c := by
  obtain ⟨cs', h', hprop, _⟩ := split_spec t m hm
  rw [h'] at h
  injection h with h
  subst h
  intro c hc
  exact (hprop c hc).1

/-- Witness for C4 at a concrete input. -/
theorem c4_trimmed_witness : strip ("cd".toList) = "cd".toList :=
  c4_trimmed ("cd".toList) 4 ["cd".toList] (by decide) (by decide) ("cd".toList) (by decide)

/-- Claim C5, counterexample: with a corrector that always times out, the
final output of `correct_full_text` is the reassembly of the trimmed
segments, not the input text verbatim: on input `" a"` the output is `"a"`. -/
theorem c5_cex :
    correct_full_text svcTimeout (" a".toList) 10
      = some ("a".toList, [{ content := "a".toList, corrected := false }]) ∧
    ("a".toList : Text) ≠ " a".toList :=
  ⟨by decide, by decide⟩

/-- Claim C5 (amended): if the corrector times out on every segment, the
final output of `correct_full_text` equals the `"\n\n"`-join of the segments
(equal to the input only up to whitespace normalization), every segment
result carries the original segment content with `corrected = false`, and
the number of corrected segments is zero. -/
theorem c5_timeout (t : Text) (m : Int) (cs : List Text) (hm : 0 < m)
    (h : split_text_into_chunks t m = some cs) :
    correct_full_text svcTimeout t m
      = some (joinSep ppSep cs,
          cs.map (fun c => { content := c, corrected := false })) ∧
    nws (joinSep ppSep cs) = nws t ∧
    (cs.map (fun c => ({ content := c, corrected := false } : SegmentResult))).countP
      (fun r => r.corrected) = 0 := by
  refine ⟨?_, ?_, countP_corrected_map_false cs⟩
  · rw [correct_full_text_eq svcTimeout t m cs h, correctChunks_timeout 0 cs,
      map_content_timeout cs]
  · obtain ⟨cs', h', _, hcontent⟩ := split_spec t m hm
    rw [h'] at h
    injection h with h
    subst h
    rw [joinSep_nws ppSep (by decide) cs']
    exact hcontent

/-- Witness for C5 at a concrete input. -/
theorem c5_timeout_witness :
    correct_full_text svcTimeout ("ok".toList) 5
      = some (joinSep ppSep ["ok".toList],
          ["ok".toList].map (fun c => { content := c, corrected := false })) ∧
    nws (joinSep ppSep ["ok".toList]) = nws ("ok".toList) ∧
    (["ok".toList].map
        (fun c => ({ content := c, corrected := false } : SegmentResult))).countP
      (fun r => r.corrected) = 0 :=
  c5_timeout ("ok".toList) 5 ["ok".toList] (by decide) (by decide)

/-- Claim C6 (confirmed): if two service behaviours agree on every segment
index except `i`, then `correct_full_text` produces, for both, a result for
every segment (the result lists have the same length as the segment list, so
all segments are processed regardless of outcomes), and the results at every
index other than `i` coincide: result `j` depends only on segment `j` and
the service outcome for segment `j`. -/
theorem c6_isolation (svc1 svc2 : Nat → ServiceResult) (i : Nat)
    (hag : ∀ j, j ≠ i → svc1 j = svc2 j) (t : Text) (m : Int) (cs : List Text)
    (h : split_text_into_chunks t m = some cs) :
    correct_full_text svc1 t m
      = some (joinSep ppSep ((correctChunks svc1 0 cs).map (fun r => r.content)),
          correctChunks svc1 0 cs) ∧
    correct_full_text svc2 t m
      = some (joinSep ppSep ((correctChunks svc2 0 cs).map (fun r => r.content)),
          correctChunks svc2 0 cs) ∧
    (correctChunks svc1 0 cs).length = cs.length ∧
    (correctChunks svc2 0 cs).length = cs.length ∧
    ∀ j, j ≠ i → (correctChunks svc1 0 cs)[j]? = (correctChunks svc2 0 cs)[j]? := by
  refine ⟨correct_full_text_eq svc1 t m cs h, correct_full_text_eq svc2 t m cs h,
    correctChunks_length svc1 cs 0, correctChunks_length svc2 cs 0, ?_⟩
  intro j hj
  exact correctChunks_agree svc1 svc2 i hag cs 0 j (by omega)

/-- Witness for C6 at a concrete input: changing the first call's outcome
from timeout to connection error leaves the second segment's result
unchanged. -/
theorem c6_isolation_witness :
    (correctChunks svcTimeout 0 ["ab".toList, "cd".toList])[1]?
      = (correctChunks svcMixed 0 ["ab".toList, "cd".toList])[1]? :=
  (c6_isolation svcTimeout svcMixed 0
      (fun j hj => by simp [svcTimeout, svcMixed, hj]) ("ab\n\ncd".toList) 2
      ["ab".toList, "cd".toList] (by decide)).2.2.2.2 1 (by decide)

/-- Claim C7 (code bug): the code performs no startup validation of
`max_chars`.  With `max_chars = -5` the whole pipeline runs to completion
and silently produces an empty output for the non-empty input `"abc"`
(no fatal configuration error), and with `max_chars = 0` the failure is a
`ValueError` raised in the middle of segmentation, not at startup. -/
theorem c7_no_validation :
    correct_full_text svcTimeout ("abc".toList) (-5) = some ([], []) ∧
    split_text_into_chunks ("abc".toList) 0 = none :=
  ⟨by decide, by decide⟩

/-- Claim C8 (confirmed): a single 5000-character sentence with
`max_chars = 2000` is split into exactly the 3 hard-cut pieces of lengths
2000, 2000 and 1000; and in general a unit whose length is exactly
`max_chars` (a text forming a single paragraph, already trimmed) is kept
whole, not hard-cut. -/
theorem c8_hard_cut :
    split_text_into_chunks (List.replicate 5000 'a') 2000
      = some [List.replicate 2000 'a', List.replicate 2000 'a',
          List.replicate 1000 'a'] ∧
    ∀ (t : Text) (m : Int), 0 < m → (t.length : Int) = m → splitPP t = [t] →
      strip t = t → t ≠ [] → split_text_into_chunks t m = some [t] := by
  constructor
  · -- the replicate texts contain neither newlines nor any whitespace
    have hrep : ∀ n : Nat, ∀ c ∈ List.replicate n 'a', c = 'a' :=
      fun n c hc => (List.mem_replicate.mp hc).2
    have hsp : ∀ n : Nat, ∀ c ∈ List.replicate n 'a', isSpaceChar c = false := by
      intro n c hc
      rw [hrep n c hc]
      decide
    have hstripn : ∀ n : Nat, strip (List.replicate n 'a') = List.replicate n 'a' :=
      fun n => strip_no_space _ (hsp n)
    have hne : ∀ n : Nat, 0 < n → List.replicate n 'a' ≠ [] := by
      intro n hn h
      have hl := List.length_replicate n 'a'
      rw [h] at hl
      simp only [List.length_nil] at hl
      omega
    have hpp : splitPP (List.replicate 5000 'a') = [List.replicate 5000 'a'] :=
      splitPP_no_newline _ (fun c hc => by rw [hrep 5000 c hc]; decide)
    have hsent : splitSent (List.replicate 5000 'a') = [List.replicate 5000 'a'] :=
      splitSentAux_no_space _ (hsp 5000) false false
    -- the three hard-cut slices
    have hpieces : hardCutPieces 2000 (List.replicate 5000 'a')
        = [List.replicate 2000 'a', List.replicate 2000 'a', List.replicate 1000 'a'] := by
      have h1 : (List.replicate 5000 'a').take 2000 = List.replicate 2000 'a' := by
        rw [List.take_replicate]
        congr 1
      have h2 : (List.replicate 5000 'a').drop 2000 = List.replicate 3000 'a' := by
        rw [List.drop_replicate]
      have h3 : (List.replicate 3000 'a').take 2000 = List.replicate 2000 'a' := by
        rw [List.take_replicate]
        congr 1
      have h4 : (List.replicate 3000 'a').drop 2000 = List.replicate 1000 'a' := by
        rw [List.drop_replicate]
      have h5 : (List.replicate 1000 'a').take 2000 = List.replicate 1000 'a' := by
        rw [List.take_replicate]
        congr 1
      have h6 : (List.replicate 1000 'a').drop 2000 = [] := by
        rw [List.drop_replicate]
        norm_num
      rw [hardCutPieces_cons 2000 (by norm_num) _ (hne 5000 (by norm_num)), h1, h2,
        hardCutPieces_cons 2000 (by norm_num) _ (hne 3000 (by norm_num)), h3, h4,
        hardCutPieces_cons 2000 (by norm_num) _ (hne 1000 (by norm_num)), h5, h6]
      rfl
    -- the three buffer steps of the slice loop
    have hf1 : flushAppend spSep 2000 ([], []) (List.replicate 2000 'a')
        = ([], List.replicate 2000 'a') := by
      unfold flushAppend
      rw [if_neg (fun h => h.1 rfl)]
      rfl
    have hlen2 : ((List.replicate 2000 'a').length : Int)
        + ((List.replicate 2000 'a').length : Int) > 2000 := by
      rw [List.length_replicate]
      decide
    have hlen21 : ((List.replicate 2000 'a').length : Int)
        + ((List.replicate 1000 'a').length : Int) > 2000 := by
      rw [List.length_replicate, List.length_replicate]
      decide
    have hf2 : flushAppend spSep 2000 ([], List.replicate 2000 'a')
        (List.replicate 2000 'a')
        = ([List.replicate 2000 'a'], List.replicate 2000 'a') := by
      unfold flushAppend
      rw [if_pos ⟨hne 2000 (by norm_num), hlen2⟩, hstripn 2000]
      rfl
    have hf3 : flushAppend spSep 2000 ([List.replicate 2000 'a'], List.replicate 2000 'a')
        (List.replicate 1000 'a')
        = ([List.replicate 2000 'a', List.replicate 2000 'a'], List.replicate 1000 'a') := by
      unfold flushAppend
      rw [if_pos ⟨hne 2000 (by norm_num), hlen21⟩, hstripn 2000]
      rfl
    have hsentences : procSentences 2000 ([], []) [List.replicate 5000 'a']
        = some ([List.replicate 2000 'a', List.replicate 2000 'a'],
            List.replicate 1000 'a') := by
      rw [procSentences, if_neg (by rw [hstripn 5000]; exact hne 5000 (by norm_num)),
        if_pos (by rw [List.length_replicate]; decide),
        if_neg (by decide : ¬(2000 : Int) = 0), if_neg (by decide : ¬(2000 : Int) < 0)]
      have ht : ((2000 : Int)).toNat = 2000 := rfl
      rw [ht, hpieces, procPieces, hf1, procPieces, hf2, procPieces, hf3, procPieces]
      rfl
    have hparas : procParagraphs 2000 ([], []) [List.replicate 5000 'a']
        = some ([List.replicate 2000 'a', List.replicate 2000 'a'],
            List.replicate 1000 'a') := by
      rw [procParagraphs, if_pos (by rw [List.length_replicate]; decide)]
      unfold splitSent at hsent
      rw [show splitSent (List.replicate 5000 'a') = [List.replicate 5000 'a'] from hsent,
        hsentences]
      rfl
    unfold split_text_into_chunks
    rw [hpp, hparas]
    show some (if strip (List.replicate 1000 'a') = []
        then [List.replicate 2000 'a', List.replicate 2000 'a']
        else [List.replicate 2000 'a', List.replicate 2000 'a']
          ++ [strip (List.replicate 1000 'a')]) = _
    rw [hstripn 1000, if_neg (hne 1000 (by norm_num))]
    rfl
  · intro t m hm hlen hpp hstrip hne
    unfold split_text_into_chunks
    rw [hpp, procParagraphs, if_neg (by omega : ¬(t.length : Int) > m)]
    have hflush : flushAppend ppSep m ([], ([] : Text)) t = ([], t) := by
      unfold flushAppend
      rw [if_neg (by simp)]
      simp
    rw [hflush, procParagraphs]
    simp [hstrip, hne]

/-- Witness for the universally quantified part of C8 at a concrete input. -/
theorem c8_hard_cut_witness : split_text_into_chunks ("xy".toList) 2 = some ["xy".toList] :=
  c8_hard_cut.2 ("xy".toList) 2 (by decide) (by decide) (by decide) (by decide) (by decide)

/-- Claim C9, counterexample: a whitespace-only paragraph is not skipped.
In `"abc\n\n   \n\ndef"` the middle paragraph is whitespace-only, yet with
`max_chars = 100` the returned single segment is the whole input — the
whitespace paragraph was appended into the buffer (its content appears
between the separators), instead of being skipped to give `"abc\n\ndef"`. -/
theorem c9_cex :
    splitPP ("abc\n\n   \n\ndef".toList) = ["abc".toList, "   ".toList, "def".toList] ∧
    strip ("   ".toList) = [] ∧
    split_text_into_chunks ("abc\n\n   \n\ndef".toList) 100
      = some ["abc\n\n   \n\ndef".toList] :=
  ⟨by decide, by decide, by decide⟩

/-- Claim C9 (amended): whitespace-only sentences are skipped by the
sentence loop — they change no state and contribute no segment; whitespace
only paragraphs, however, are not skipped: they are appended into the
buffer (see the counterexample). -/
theorem c9_sentences_skipped (m : Int) (st : List Text × Text) (s : Text)
    (ss : List Text) (hblank : strip s = []) :
    procSentences m st (s :: ss) = procSentences m st ss := by
  rw [procSentences, if_pos hblank]

/-- Witness for C9 at a concrete input. -/
theorem c9_sentences_skipped_witness :
    procSentences 5 ([], []) [" ".toList] = procSentences 5 ([], []) [] :=
  c9_sentences_skipped 5 ([], []) (" ".toList) [] (by decide)

/-- Claim C10 (confirmed): `split_text_into_chunks` performs no validation
of `max_chars`.  For every negative `max_chars` it returns the empty list on
every input (all content silently discarded: each non-blank sentence is
longer than the negative bound and its hard-cut `range` is empty), and for
`max_chars = 0` it raises `ValueError` (zero step in `range`, modelled as
`none`) on every input containing a non-whitespace character. -/
theorem c10_degenerate :
    (∀ m : Int, m < 0 → ∀ t : Text, split_text_into_chunks t m = some []) ∧
    (∀ t : Text, nws t ≠ [] → split_text_into_chunks t 0 = none) := by
  constructor
  · intro m hm t
    unfold split_text_into_chunks
    rw [procParagraphs_neg m hm (splitPP t) ([], [])]
    rfl
  · intro t hws
    unfold split_text_into_chunks
    rw [procParagraphs_zero_none (splitPP t) ([], []) (by rw [splitPP_nws]; exact hws)]

/-- Witness for C10 at concrete inputs. -/
theorem c10_degenerate_witness :
    split_text_into_chunks ("abc".toList) (-3) = some [] ∧
    split_text_into_chunks ("xy".toList) 0 = none :=
  ⟨c10_degenerate.1 (-3) (by decide) ("abc".toList),
    c10_degenerate.2 ("xy".toList) (by decide)⟩

end Claims

end Extract
